import Mathlib

/-!
Verification of the contact-zones preprocessing module.

The definitions below are a shallow embedding of `src/preprocessing.py`.
Python floats are modelled by exact rationals (`ℚ`) where only field
operations and comparisons occur, and by real numbers (`ℝ`) where
logarithms and square roots appear; extended values (`math.inf`, `-math.inf`)
live in `EReal`.  Fallible code (Python exceptions propagating to the
caller) is modelled by `Except Unit`.  Randomness (numpy RNG draws) is
modelled by passing the raw draws as explicit function arguments.
-/

namespace ContactZones

/-! ### Feature-likelihood lookup (`precompute_feature_likelihood`) -/

/-- One-sided binomial tail probability `P(X ≥ s_zone | n_zone, p_global)`,
the value of `scipy.stats.binom_test(s_zone, n_zone, p_global, 'greater')`
in exact arithmetic. -/
def pTail (s_zone n_zone : ℕ) (p_global : ℚ) : ℚ :=
  ∑ k in Finset.Icc s_zone n_zone,
    (n_zone.choose k : ℚ) * p_global ^ k * (1 - p_global) ^ (n_zone - k)

/-- The inner function `ll` of `precompute_feature_likelihood`
(src/preprocessing.py lines 474-493).  In log-surprise mode the code runs
`lh = -math.log(p_value)` inside a `try` whose handler re-raises the
exception, so `p_value ≤ 0` propagates an error; the final `math.log(lh)`
raises `ValueError` exactly when `lh ≤ 0`, which the code converts to
`-math.inf`.  In reciprocal mode `1/p_value` raises `ZeroDivisionError`
exactly when `p_value = 0`, which the code converts to `lh = math.inf`,
and `math.log(math.inf) = math.inf`. -/
noncomputable def ll (s_zone n_zone : ℕ) (p_global : ℚ) (log_surprise : Bool) :
    Except Unit EReal :=
  match log_surprise with
  | true =>
    if pTail s_zone n_zone p_global ≤ 0 then Except.error ()
    else if -Real.log ((pTail s_zone n_zone p_global : ℚ) : ℝ) ≤ 0 then Except.ok ⊥
    else Except.ok ((Real.log (-Real.log ((pTail s_zone n_zone p_global : ℚ) : ℝ)) : ℝ) : EReal)
  | false =>
    if pTail s_zone n_zone p_global = 0 then Except.ok ⊤
    else if 1 / ((pTail s_zone n_zone p_global : ℚ) : ℝ) ≤ 0 then Except.ok ⊥
    else Except.ok ((Real.log (1 / ((pTail s_zone n_zone p_global : ℚ) : ℝ)) : ℝ) : EReal)

/-- Input of `precompute_feature_likelihood`: the nested dictionary
`feat_prob` mapping feature → category → global probability, modelled as
an association list (category keys are integers so that the missing-value
marker `-1` is representable). -/
abbrev FeatProb := List (ℕ × List (ℤ × ℚ))

abbrev SRow := List (ℕ × EReal)

abbrev SizeTable := List (ℕ × SRow)

abbrev CatTable := List (ℤ × SizeTable)

abbrev Table := List (ℕ × CatTable)

/-- Build an association list keyed by the given keys, failing as soon as
one entry computation fails (a Python loop whose body may raise). -/
def exceptTab {β : Type} (g : ℕ → Except Unit β) : List ℕ → Except Unit (List (ℕ × β))
  | [] => Except.ok []
  | k :: ks =>
    match g k with
    | Except.error e => Except.error e
    | Except.ok b =>
      match exceptTab g ks with
      | Except.error e => Except.error e
      | Except.ok t => Except.ok ((k, b) :: t)

/-- Map the values of an association list through a fallible function,
failing as soon as one entry fails. -/
def exceptMapVals {κ α β : Type} (g : κ → α → Except Unit β) :
    List (κ × α) → Except Unit (List (κ × β))
  | [] => Except.ok []
  | (k, a) :: rest =>
    match g k a with
    | Except.error e => Except.error e
    | Except.ok b =>
      match exceptMapVals g rest with
      | Except.error e => Except.error e
      | Except.ok r => Except.ok ((k, b) :: r)

/-- Innermost loop of `precompute_feature_likelihood`:
`for s_zone in range(n_zone + 1)`. -/
noncomputable def sRow (n : ℕ) (p : ℚ) (ls : Bool) : Except Unit SRow :=
  exceptTab (fun s => ll s n p ls) (List.range (n + 1))

/-- Middle loop: `for n_zone in range(min_size, max_size + 1)`. -/
noncomputable def sizeTab (min_size max_size : ℕ) (p : ℚ) (ls : Bool) :
    Except Unit SizeTable :=
  exceptTab (fun n => sRow n p ls) (List.range' min_size (max_size + 1 - min_size))

/-- `precompute_feature_likelihood` (src/preprocessing.py lines 453-509):
for every feature and every category other than the missing-value marker
`-1`, tabulate the surprise score for every zone size in
`[min_size, max_size]` and every observed count in `[0, n_zone]`.  An
exception raised by the inner `ll` propagates out of the whole call. -/
noncomputable def precompute_feature_likelihood (min_size max_size : ℕ)
    (feat_prob : FeatProb) (ls : Bool) : Except Unit Table :=
  exceptMapVals
    (fun _ cats => exceptMapVals (fun _ p => sizeTab min_size max_size p ls)
      (cats.filter fun cp => cp.1 != -1))
    feat_prob

/-- Query the lookup table: `lookup_dict[f][c][n][s]`. -/
def getScore (tbl : Table) (f : ℕ) (c : ℤ) (n s : ℕ) : Option EReal :=
  (List.lookup f tbl).bind fun ct =>
    (List.lookup c ct).bind fun st =>
      (List.lookup n st).bind fun row => List.lookup s row

/-- Query the input dictionary: `feat_prob[f][c]`. -/
def fpLookup (fp : FeatProb) (f : ℕ) (c : ℤ) : Option ℚ :=
  (List.lookup f fp).bind fun cats => List.lookup c cats

/-- The input of spec end-to-end scenario 2:
`feat_prob = {0: {0: 0.5, 1: 0.5}}`. -/
def fpC4 : FeatProb := [(0, [((0:ℤ), (1:ℚ)/2), ((1:ℤ), (1:ℚ)/2)])]

/-- Table entry for `n_zone = 2, s_zone = 1, p_global = 1/2` in log-surprise
mode: `ln(-ln(3/4))`. -/
noncomputable def entry21 : EReal := ((Real.log (-Real.log ((3:ℝ)/4)) : ℝ) : EReal)

/-- Table entry for `n_zone = 2, s_zone = 2, p_global = 1/2` in log-surprise
mode: `ln(-ln(1/4))`. -/
noncomputable def entry22 : EReal := ((Real.log (-Real.log ((1:ℝ)/4)) : ℝ) : EReal)

/-- The inner `s_zone` row for `n_zone = 2`, `p_global = 1/2`. -/
noncomputable def srowC4 : SRow := [(0, (⊥ : EReal)), (1, entry21), (2, entry22)]

/-- The lookup table built from `fpC4` with `min_size = max_size = 2`. -/
noncomputable def tblC4 : Table :=
  [(0, [((0:ℤ), [(2, srowC4)]), ((1:ℤ), [(2, srowC4)])])]

/-! ### Spatial network builder (`compute_network`, spec §4.1) -/

/-- Euclidean distance between two points in the plane, the value of
`np.linalg.norm(a - b)` for 2-vectors. -/
noncomputable def euclid (u v : ℝ × ℝ) : ℝ :=
  Real.sqrt ((u.1 - v.1) ^ 2 + (u.2 - v.2) ^ 2)

/-- The parts of the network dictionary returned by `compute_network` that
the claims are about. -/
structure Network where
  n : ℕ
  edges : List (ℕ × ℕ)
  distMat : ℕ → ℕ → ℝ
  adjMat : ℕ → ℕ → Bool

/-- `compute_network` (src/preprocessing.py lines 80-122).  The Delaunay
adjacency comes from `compute_delaunay` in `src.util`, which is not in this
repository snapshot; it is modelled from the spec (§4.1: "compute a planar
Delaunay triangulation over the coordinates", §3: the edge set is symmetric)
as an explicit boolean adjacency argument.  The edge list enumerates the
nonzero adjacency entries in row-major order (`np.nonzero`), and the dense
distance matrix holds all pairwise Euclidean distances
(`np.linalg.norm(locations[:, None] - locations, axis=-1)`). -/
noncomputable def compute_network (locations : List (ℝ × ℝ))
    (delaunay : ℕ → ℕ → Bool) : Network where
  n := locations.length
  edges := (List.range locations.length).flatMap fun i =>
    ((List.range locations.length).filter fun j => delaunay i j).map fun j => (i, j)
  distMat := fun i j => euclid (locations.getD i (0, 0)) (locations.getD j (0, 0))
  adjMat := delaunay

/-! ### Geo-prior estimation (`estimate_geo_prior_parameters`, spec §4.2) -/

/-- Entry `(i, j)` of `delaunay.multiply(dist_mat)` inside
`estimate_geo_prior_parameters` (src/preprocessing.py line 313): the
Delaunay adjacency elementwise-multiplied with the distance matrix. -/
noncomputable def delaunayWeighted (locations : List (ℝ × ℝ))
    (delaunay : ℕ → ℕ → Bool) (i j : ℕ) : ℝ :=
  if delaunay i j then euclid (locations.getD i (0, 0)) (locations.getD j (0, 0)) else 0

/-- The nonzero entries `mst.tocsr()[mst.nonzero()]` of
`delaunay.multiply(dist_mat)` (src/preprocessing.py line 325), in row-major
order. -/
noncomputable def delaunayDistEntries (locations : List (ℝ × ℝ))
    (delaunay : ℕ → ℕ → Bool) : List ℝ :=
  ((List.range locations.length).flatMap fun i =>
      (List.range locations.length).map fun j =>
        delaunayWeighted locations delaunay i j).filter fun x => decide (x ≠ 0)

/-- The "distance" branch of `estimate_geo_prior_parameters`
(src/preprocessing.py lines 324-326): `np.mean(distances)` over the nonzero
entries of the matrix the source names `mst`.  Note that this matrix is
`delaunay.multiply(dist_mat)` — the source never applies
`scipy.sparse.csgraph.minimum_spanning_tree` (that import is unused), so
the mean ranges over all Delaunay edges. -/
noncomputable def estimate_geo_prior_distance (locations : List (ℝ × ℝ))
    (delaunay : ℕ → ℕ → Bool) : ℝ :=
  (delaunayDistEntries locations delaunay).sum
    / ((delaunayDistEntries locations delaunay).length : ℝ)

/-- Modelled from the spec: §4.2 "build the minimum spanning tree (MST) of
the Delaunay-weighted graph; the fitted parameter is the mean edge length
along the MST".  For a triangle graph with edge lengths `a`, `b`, `c`, the
minimum spanning tree consists of the two shortest edges, so the mean MST
edge length drops the heaviest edge and averages the other two. -/
noncomputable def mstMeanTriangle (a b c : ℝ) : ℝ := (a + b + c - max a (max b c)) / 2

/-- Concrete failing input for the geo-prior claim: three non-collinear
sites at `(0,0)`, `(1,0)`, `(0,2)`. -/
noncomputable def locsC1 : List (ℝ × ℝ) := [((0:ℝ), (0:ℝ)), ((1:ℝ), (0:ℝ)), ((0:ℝ), (2:ℝ))]

/-- The Delaunay triangulation of three non-collinear points is the full
triangle: every ordered pair of distinct vertices is adjacent. -/
def dC1 : ℕ → ℕ → Bool := fun i j => decide (i ≠ j) && decide (i < 3) && decide (j < 3)

/-! ### Simulation harness (spec §4.5) -/

/-- One Dirichlet draw of dimension `k`: `np.random.dirichlet` is modelled
by its defining construction, normalisation of independent positive gamma
draws `g 0, …, g (k-1)`. -/
noncomputable def dirichletSample (k : ℕ) (g : ℕ → ℝ) : List ℝ :=
  (List.range k).map fun i => g i / ∑ j in Finset.range k, g j

/-- `simulate_weights` (src/preprocessing.py lines 601-622): one Dirichlet
draw per feature over `alpha_sim = [f_global, f_contact, f_inheritance]`
when `inheritance` holds and `[f_global, f_contact]` otherwise; the raw
positive gamma draws behind each row are passed as `g`. -/
noncomputable def simulate_weights (f_global f_contact f_inheritance : ℝ)
    (inheritance : Bool) (n_features : ℕ) (g : ℕ → ℕ → ℝ) : List (List ℝ) :=
  (List.range n_features).map fun f =>
    dirichletSample (if inheritance then 3 else 2) (g f)

/-- One entry of a Dirichlet draw of dimension `k` (value at index `c`). -/
noncomputable def dirichletVal (k : ℕ) (g : ℕ → ℝ) (c : ℕ) : ℝ :=
  g c / ∑ j in Finset.range k, g j

/-- `simulate_assignment_probabilities` (src/preprocessing.py lines
625-691): the per-feature category count drawn by `np.random.choice` from
`p_number_categories` is passed as the oracle `catCount`; the probability
arrays `p_global`, `p_zones`, `p_families` are zero-initialised and each
row is overwritten on `range(cat_f)` by a Dirichlet draw (modelled by the
positive raw draws `gG`, `gZ`, `gF`), so padding entries at `c ≥ cat_f`
stay zero.  When `inheritance` is false the family table is `None`. -/
noncomputable def simulate_assignment_probabilities (n_features : ℕ)
    (catCount : ℕ → ℕ) (inheritance : Bool) (n_zones n_families : ℕ)
    (gG : ℕ → ℕ → ℝ) (gZ : ℕ → ℕ → ℕ → ℝ) (gF : ℕ → ℕ → ℕ → ℝ) :
    (ℕ → ℕ → ℝ) × (ℕ → ℕ → ℕ → ℝ) × Option (ℕ → ℕ → ℕ → ℝ) :=
  ⟨fun f c => if c < catCount f then dirichletVal (catCount f) (gG f) c else 0,
   fun z f c => if c < catCount f then dirichletVal (catCount f) (gZ z f) c else 0,
   if inheritance then
     some fun fam f c => if c < catCount f then dirichletVal (catCount f) (gF fam f) c else 0
   else none⟩

/-- The loop of `simulate_families` (src/preprocessing.py lines 570-598):
for each family index pick some of the remaining sites
(`np.random.choice(sites, size=f_size, replace=False)`, modelled by the
oracle `choose`, which is required to pick from the remaining pool) and
then remove the picked sites from the pool
(`sites = [s for s in sites if s not in f]`). -/
def famSetsAux (choose : ℕ → List ℕ → List ℕ) : ℕ → ℕ → List ℕ → List (List ℕ)
  | _, 0, _ => []
  | k, m + 1, rem =>
    choose k rem ::
      famSetsAux choose (k + 1) m (rem.filter fun s => decide (s ∉ choose k rem))

/-- `simulate_families`: the boolean membership matrix `families[k, s]`. -/
def simulate_families (choose : ℕ → List ℕ → List ℕ) (n_families : ℕ)
    (siteIds : List ℕ) : ℕ → ℕ → Bool :=
  fun k s => decide (s ∈ (famSetsAux choose 0 n_families siteIds).getD k [])

/-! ### Categorical sampling (`sample_categorical`) -/

/-- Cumulative sums along the last axis: `np.cumsum(p, axis=-1)` on one
row. -/
def cumsum : List ℚ → List ℚ
  | [] => []
  | x :: xs => x :: (cumsum xs).map (fun c => x + c)

/-- Index of the first `true` in a boolean vector, 0 when there is none —
the behaviour of `np.argmax` on booleans. -/
def firstTrue : List Bool → Option ℕ
  | [] => none
  | true :: _ => some 0
  | false :: rest => (firstTrue rest).map (· + 1)

def argmaxBool (l : List Bool) : ℕ := (firstTrue l).getD 0

/-- The per-cell core of `sample_categorical` (src/preprocessing.py lines
251-269): `np.argmax(z < cdf, axis=-1)` for one cell's probability row `p`
and uniform draw `z`. -/
def sampleOne (p : List ℚ) (z : ℚ) : ℕ :=
  argmaxBool ((cumsum p).map fun c => decide (z < c))

/-- `sample_categorical` with the outer dimensions flattened to a list:
one uniform draw per output cell. -/
def sample_categorical (p : List (List ℚ)) (z : List ℚ) : List ℕ :=
  List.zipWith sampleOne p z

/-! ### Basic facts about the binomial tail -/

theorem pTail_term_nonneg {p : ℚ} (h0 : 0 ≤ p) (h1 : p ≤ 1) (n k : ℕ) :
    0 ≤ (n.choose k : ℚ) * p ^ k * (1 - p) ^ (n - k) := by
  have h2 : (0:ℚ) ≤ 1 - p := by linarith
  have h3 : (0:ℚ) ≤ (n.choose k : ℚ) := by positivity
  exact mul_nonneg (mul_nonneg h3 (pow_nonneg h0 _)) (pow_nonneg h2 _)

theorem pTail_nonneg {s n : ℕ} {p : ℚ} (h0 : 0 ≤ p) (h1 : p ≤ 1) : 0 ≤ pTail s n p :=
  Finset.sum_nonneg fun k _ => pTail_term_nonneg h0 h1 n k

theorem pTail_anti {s s' n : ℕ} {p : ℚ} (h0 : 0 ≤ p) (h1 : p ≤ 1) (hss : s ≤ s') :
    pTail s' n p ≤ pTail s n p :=
  Finset.sum_le_sum_of_subset_of_nonneg (Finset.Icc_subset_Icc hss le_rfl)
    fun k _ _ => pTail_term_nonneg h0 h1 n k

theorem pTail_zero_eq_one (n : ℕ) (p : ℚ) : pTail 0 n p = 1 := by
  have h : Finset.Icc 0 n = Finset.range (n + 1) := by
    ext x; simp [Nat.lt_succ_iff]
  have h2 : ∀ k ∈ Finset.range (n + 1),
      (n.choose k : ℚ) * p ^ k * (1 - p) ^ (n - k)
        = p ^ k * (1 - p) ^ (n - k) * (n.choose k : ℚ) := fun k _ => by ring
  rw [pTail, h, Finset.sum_congr rfl h2, ← add_pow]
  norm_num

theorem pTail_le_one {s n : ℕ} {p : ℚ} (h0 : 0 ≤ p) (h1 : p ≤ 1) : pTail s n p ≤ 1 :=
  (pTail_anti h0 h1 (Nat.zero_le s)).trans_eq (pTail_zero_eq_one n p)

/-! ### Branch evaluation lemmas for `ll` -/

theorem ll_log_err {s n : ℕ} {p : ℚ} (h : pTail s n p ≤ 0) :
    ll s n p true = Except.error () := by
  simp [ll, h]

theorem ll_log_bot {s n : ℕ} {p : ℚ} (h : pTail s n p = 1) :
    ll s n p true = Except.ok ⊥ := by
  simp [ll, h]

theorem ll_log_coe {s n : ℕ} {p : ℚ} (h0 : 0 < pTail s n p) (h1 : pTail s n p < 1) :
    ll s n p true
      = Except.ok ((Real.log (-Real.log ((pTail s n p : ℚ) : ℝ)) : ℝ) : EReal) := by
  have hc0 : (0:ℝ) < ((pTail s n p : ℚ) : ℝ) := by exact_mod_cast h0
  have hc1 : ((pTail s n p : ℚ) : ℝ) < 1 := by exact_mod_cast h1
  have hlog : Real.log ((pTail s n p : ℚ) : ℝ) < 0 := Real.log_neg hc0 hc1
  have hA : ¬ pTail s n p ≤ 0 := not_le.mpr h0
  have hB : ¬ -Real.log ((pTail s n p : ℚ) : ℝ) ≤ 0 := not_le.mpr (by linarith)
  simp only [ll, if_neg hA, if_neg hB]

/-! ### Monotonicity of the surprise score in the observed count -/

theorem ll_mono {s s' n : ℕ} {p : ℚ} {ls : Bool} {v v' : EReal}
    (h0 : 0 ≤ p) (h1 : p ≤ 1) (hss : s ≤ s')
    (hv : ll s n p ls = Except.ok v) (hv' : ll s' n p ls = Except.ok v') : v ≤ v' := by
  have hqnn : 0 ≤ pTail s n p := pTail_nonneg h0 h1
  have hq'nn : 0 ≤ pTail s' n p := pTail_nonneg h0 h1
  have hq1 : pTail s n p ≤ 1 := pTail_le_one h0 h1
  have hle : pTail s' n p ≤ pTail s n p := pTail_anti h0 h1 hss
  cases ls with
  | true =>
    by_cases hz : pTail s n p ≤ 0
    · rw [ll_log_err hz] at hv; exact absurd hv (by simp)
    · have hqpos : 0 < pTail s n p := not_le.mp hz
      by_cases hz' : pTail s' n p ≤ 0
      · rw [ll_log_err hz'] at hv'; exact absurd hv' (by simp)
      · have hq'pos : 0 < pTail s' n p := not_le.mp hz'
        by_cases hone : pTail s n p = 1
        · rw [ll_log_bot hone] at hv
          cases hv; exact bot_le
        · have hlt1 : pTail s n p < 1 := lt_of_le_of_ne hq1 hone
          have hlt1' : pTail s' n p < 1 := lt_of_le_of_lt hle hlt1
          rw [ll_log_coe hqpos hlt1] at hv
          rw [ll_log_coe hq'pos hlt1'] at hv'
          cases hv; cases hv'
          have hc0 : (0:ℝ) < ((pTail s n p : ℚ) : ℝ) := by exact_mod_cast hqpos
          have hc0' : (0:ℝ) < ((pTail s' n p : ℚ) : ℝ) := by exact_mod_cast hq'pos
          have hc1 : ((pTail s n p : ℚ) : ℝ) < 1 := by exact_mod_cast hlt1
          have hcle : ((pTail s' n p : ℚ) : ℝ) ≤ ((pTail s n p : ℚ) : ℝ) := by
            exact_mod_cast hle
          have hlneg : Real.log ((pTail s n p : ℚ) : ℝ) < 0 := Real.log_neg hc0 hc1
          have hlle : Real.log ((pTail s' n p : ℚ) : ℝ) ≤ Real.log ((pTail s n p : ℚ) : ℝ) :=
            Real.log_le_log hc0' hcle
          have : Real.log (-Real.log ((pTail s n p : ℚ) : ℝ))
              ≤ Real.log (-Real.log ((pTail s' n p : ℚ) : ℝ)) :=
            Real.log_le_log (by linarith) (by linarith)
          exact_mod_cast EReal.coe_le_coe_iff.mpr this
  | false =>
    by_cases hz : pTail s n p = 0
    · have hz' : pTail s' n p = 0 := le_antisymm (hz ▸ hle) hq'nn
      simp only [ll, if_pos hz, if_pos hz'] at hv hv'
      cases hv; cases hv'; exact le_rfl
    · have hqpos : 0 < pTail s n p := lt_of_le_of_ne hqnn (Ne.symm hz)
      have hc0 : (0:ℝ) < ((pTail s n p : ℚ) : ℝ) := by exact_mod_cast hqpos
      have hinv : (0:ℝ) < 1 / ((pTail s n p : ℚ) : ℝ) := by positivity
      rw [ll] at hv
      rw [if_neg hz, if_neg (not_le.mpr hinv)] at hv
      cases hv
      by_cases hz' : pTail s' n p = 0
      · simp only [ll, if_pos hz'] at hv'
        cases hv'; exact le_top
      · have hq'pos : 0 < pTail s' n p := lt_of_le_of_ne hq'nn (Ne.symm hz')
        have hc0' : (0:ℝ) < ((pTail s' n p : ℚ) : ℝ) := by exact_mod_cast hq'pos
        have hinv' : (0:ℝ) < 1 / ((pTail s' n p : ℚ) : ℝ) := by positivity
        rw [ll] at hv'
        rw [if_neg hz', if_neg (not_le.mpr hinv')] at hv'
        cases hv'
        have hcle : ((pTail s' n p : ℚ) : ℝ) ≤ ((pTail s n p : ℚ) : ℝ) := by exact_mod_cast hle
        have hdiv : 1 / ((pTail s n p : ℚ) : ℝ) ≤ 1 / ((pTail s' n p : ℚ) : ℝ) :=
          one_div_le_one_div_of_le hc0' hcle
        exact EReal.coe_le_coe_iff.mpr (Real.log_le_log hinv hdiv)

/-! ### Inversion lemmas for the table builders -/

theorem exceptTab_ok_inv {β : Type} {g : ℕ → Except Unit β} :
    ∀ {ks : List ℕ} {t : List (ℕ × β)}, exceptTab g ks = Except.ok t →
      ∀ {k : ℕ} {b : β}, List.lookup k t = some b → k ∈ ks ∧ g k = Except.ok b := by
  intro ks
  induction ks with
  | nil =>
    intro t ht k b hb
    simp only [exceptTab, Except.ok.injEq] at ht
    subst ht
    simp [List.lookup] at hb
  | cons k0 ks ih =>
    intro t ht k b hb
    simp only [exceptTab] at ht
    cases hg : g k0 with
    | error e => rw [hg] at ht; simp at ht
    | ok b0 =>
      rw [hg] at ht
      cases hr : exceptTab g ks with
      | error e => rw [hr] at ht; simp at ht
      | ok t' =>
        rw [hr] at ht
        simp only [Except.ok.injEq] at ht
        subst ht
        by_cases hk : k = k0
        · subst hk
          simp [List.lookup] at hb
          subst hb
          exact ⟨List.mem_cons_self _ _, hg⟩
        · have hbne : (k == k0) = false := beq_false_of_ne hk
          simp only [List.lookup, hbne] at hb
          obtain ⟨hmem, hgk⟩ := ih hr hb
          exact ⟨List.mem_cons_of_mem _ hmem, hgk⟩

theorem exceptTab_ok_mem {β : Type} {g : ℕ → Except Unit β} :
    ∀ {ks : List ℕ} {t : List (ℕ × β)}, exceptTab g ks = Except.ok t →
      ∀ {k : ℕ}, k ∈ ks → ∃ b, g k = Except.ok b ∧ List.lookup k t = some b := by
  intro ks
  induction ks with
  | nil => intro t _ k hk; exact absurd hk (List.not_mem_nil k)
  | cons k0 ks ih =>
    intro t ht k hk
    simp only [exceptTab] at ht
    cases hg : g k0 with
    | error e => rw [hg] at ht; simp at ht
    | ok b0 =>
      rw [hg] at ht
      cases hr : exceptTab g ks with
      | error e => rw [hr] at ht; simp at ht
      | ok t' =>
        rw [hr] at ht
        simp only [Except.ok.injEq] at ht
        subst ht
        by_cases hkk : k = k0
        · subst hkk
          exact ⟨b0, hg, by simp [List.lookup]⟩
        · have hmem : k ∈ ks := by
            rcases List.mem_cons.mp hk with h | h
            · exact absurd h hkk
            · exact h
          obtain ⟨b, hgk, hlk⟩ := ih hr hmem
          refine ⟨b, hgk, ?_⟩
          have hbne : (k == k0) = false := beq_false_of_ne hkk
          simp only [List.lookup, hbne]
          exact hlk

theorem exceptMapVals_ok_inv {κ α β : Type} [BEq κ] [LawfulBEq κ]
    {g : κ → α → Except Unit β} :
    ∀ {l : List (κ × α)} {l' : List (κ × β)}, exceptMapVals g l = Except.ok l' →
      ∀ {k : κ} {b : β}, List.lookup k l' = some b →
        ∃ a, List.lookup k l = some a ∧ g k a = Except.ok b := by
  intro l
  induction l with
  | nil =>
    intro l' hl k b hb
    simp only [exceptMapVals, Except.ok.injEq] at hl
    subst hl
    simp [List.lookup] at hb
  | cons hd rest ih =>
    obtain ⟨k0, a0⟩ := hd
    intro l' hl k b hb
    simp only [exceptMapVals] at hl
    cases hg : g k0 a0 with
    | error e => rw [hg] at hl; simp at hl
    | ok b0 =>
      rw [hg] at hl
      cases hr : exceptMapVals g rest with
      | error e => rw [hr] at hl; simp at hl
      | ok r =>
        rw [hr] at hl
        simp only [Except.ok.injEq] at hl
        subst hl
        by_cases hk : k = k0
        · subst hk
          simp [List.lookup] at hb
          subst hb
          exact ⟨a0, by simp [List.lookup], hg⟩
        · have hbne : (k == k0) = false := beq_false_of_ne hk
          simp only [List.lookup, hbne] at hb
          obtain ⟨a, hla, hga⟩ := ih hr hb
          exact ⟨a, by simp only [List.lookup, hbne]; exact hla, hga⟩

theorem exceptMapVals_ok_mem {κ α β : Type} [BEq κ] [LawfulBEq κ]
    {g : κ → α → Except Unit β} :
    ∀ {l : List (κ × α)} {l' : List (κ × β)}, exceptMapVals g l = Except.ok l' →
      ∀ {k : κ} {a : α}, List.lookup k l = some a →
        ∃ b, g k a = Except.ok b ∧ List.lookup k l' = some b := by
  intro l
  induction l with
  | nil => intro l' _ k a ha; simp [List.lookup] at ha
  | cons hd rest ih =>
    obtain ⟨k0, a0⟩ := hd
    intro l' hl k a ha
    simp only [exceptMapVals] at hl
    cases hg : g k0 a0 with
    | error e => rw [hg] at hl; simp at hl
    | ok b0 =>
      rw [hg] at hl
      cases hr : exceptMapVals g rest with
      | error e => rw [hr] at hl; simp at hl
      | ok r =>
        rw [hr] at hl
        simp only [Except.ok.injEq] at hl
        subst hl
        by_cases hk : k = k0
        · subst hk
          simp [List.lookup] at ha
          subst ha
          exact ⟨b0, hg, by simp [List.lookup]⟩
        · have hbne : (k == k0) = false := beq_false_of_ne hk
          simp only [List.lookup, hbne] at ha
          obtain ⟨b, hgb, hlb⟩ := ih hr ha
          exact ⟨b, hgb, by simp only [List.lookup, hbne]; exact hlb⟩

/-- `for cat, p_global in categories.items(): if cat != -1: ...` — looking a
category up in the filtered dictionary is looking it up in the original one,
except that the missing-value marker `-1` is never found. -/
theorem lookup_filter_ne (c : ℤ) (l : List (ℤ × ℚ)) :
    List.lookup c (l.filter fun cp => cp.1 != -1)
      = if c = -1 then none else List.lookup c l := by
  induction l with
  | nil => by_cases hc : c = -1 <;> simp [List.lookup, hc]
  | cons hd tl ih =>
    obtain ⟨k, v⟩ := hd
    by_cases hk : k = -1
    · subst hk
      have : ((-1 : ℤ) != -1) = false := by simp
      rw [List.filter_cons]
      simp only [this, Bool.false_eq_true, if_false]
      rw [ih]
      by_cases hc : c = -1
      · simp [hc]
      · have hbne : (c == (-1 : ℤ)) = false := beq_false_of_ne hc
        simp [hc, List.lookup, hbne]
    · have hkb : ((k : ℤ) != -1) = true := by simpa using hk
      rw [List.filter_cons]
      simp only [hkb, if_true]
      by_cases hc : c = k
      · subst hc
        have hcne : ¬ c = -1 := hk
        simp [List.lookup, hcne]
      · have hbne : (c == k) = false := beq_false_of_ne hc
        simp only [List.lookup, hbne]
        exact ih

/-! ### Linking table entries back to `ll` -/

theorem getScore_ok {minS maxS : ℕ} {fp : FeatProb} {ls : Bool} {tbl : Table}
    (h : precompute_feature_likelihood minS maxS fp ls = Except.ok tbl)
    {f : ℕ} {c : ℤ} {n s : ℕ} {v : EReal} (hv : getScore tbl f c n s = some v) :
    ∃ p, fpLookup fp f c = some p ∧ c ≠ -1 ∧
      n ∈ List.range' minS (maxS + 1 - minS) ∧ s < n + 1 ∧ ll s n p ls = Except.ok v := by
  simp only [getScore, Option.bind_eq_some] at hv
  obtain ⟨ct, hct, st, hst, row, hrow, hsv⟩ := hv
  simp only [precompute_feature_likelihood] at h
  obtain ⟨cats, hcats, hinner⟩ := exceptMapVals_ok_inv h hct
  obtain ⟨p, hpfilter, hsize⟩ := exceptMapVals_ok_inv hinner hst
  rw [lookup_filter_ne] at hpfilter
  by_cases hc : c = -1
  · rw [if_pos hc] at hpfilter
    exact absurd hpfilter (by simp)
  · rw [if_neg hc] at hpfilter
    simp only [sizeTab] at hsize
    obtain ⟨hn, hrow_ok⟩ := exceptTab_ok_inv hsize hrow
    simp only [sRow] at hrow_ok
    obtain ⟨hs, hll⟩ := exceptTab_ok_inv hrow_ok hsv
    exact ⟨p, by simp [fpLookup, hcats, hpfilter], hc, hn, List.mem_range.mp hs, hll⟩

/-- C5 helper: characterisation of membership in `List.range'`. -/
theorem range'_mem_iff {minS maxS m : ℕ} :
    m ∈ List.range' minS (maxS + 1 - minS) ↔ minS ≤ m ∧ m ≤ maxS := by
  rw [List.mem_range'_1]
  omega

/-! ### Concrete evaluation for scenario 2 (`p_global = 1/2`, `n_zone = 2`) -/

theorem pTail_val_02 : pTail 0 2 (1/2 : ℚ) = 1 := pTail_zero_eq_one 2 _

theorem pTail_val_12 : pTail 1 2 (1/2 : ℚ) = 3/4 := by
  have h : Finset.Icc (1:ℕ) 2 = {1, 2} := by decide
  have hc1 : Nat.choose 2 1 = 2 := by decide
  have hc2 : Nat.choose 2 2 = 1 := by decide
  rw [pTail, h, Finset.sum_insert (by decide), Finset.sum_singleton, hc1, hc2]
  norm_num

theorem pTail_val_22 : pTail 2 2 (1/2 : ℚ) = 1/4 := by
  have hc2 : Nat.choose 2 2 = 1 := by decide
  rw [pTail, Finset.Icc_self, Finset.sum_singleton, hc2]
  norm_num

theorem ll_val_s0 : ll 0 2 (1/2 : ℚ) true = Except.ok ⊥ := ll_log_bot pTail_val_02

theorem ll_val_s1 : ll 1 2 (1/2 : ℚ) true = Except.ok entry21 := by
  rw [ll_log_coe (by rw [pTail_val_12]; norm_num) (by rw [pTail_val_12]; norm_num)]
  rw [pTail_val_12, entry21]
  norm_num

theorem ll_val_s2 : ll 2 2 (1/2 : ℚ) true = Except.ok entry22 := by
  rw [ll_log_coe (by rw [pTail_val_22]; norm_num) (by rw [pTail_val_22]; norm_num)]
  rw [pTail_val_22, entry22]
  norm_num

theorem sRow_val : sRow 2 (1/2 : ℚ) true = Except.ok srowC4 := by
  have h : List.range (2 + 1) = [0, 1, 2] := rfl
  rw [sRow, h]
  simp only [exceptTab]
  rw [ll_val_s0, ll_val_s1, ll_val_s2]
  rfl

theorem sizeTab_val : sizeTab 2 2 (1/2 : ℚ) true = Except.ok [(2, srowC4)] := by
  have h : List.range' 2 (2 + 1 - 2) = [2] := rfl
  rw [sizeTab, h]
  simp only [exceptTab]
  rw [sRow_val]

theorem precompute_val : precompute_feature_likelihood 2 2 fpC4 true = Except.ok tblC4 := by
  rw [precompute_feature_likelihood, fpC4]
  have hf : ([((0:ℤ), (1:ℚ)/2), ((1:ℤ), (1:ℚ)/2)]).filter (fun cp => cp.1 != -1)
      = [((0:ℤ), (1:ℚ)/2), ((1:ℤ), (1:ℚ)/2)] := rfl
  simp only [exceptMapVals, hf]
  rw [sizeTab_val]
  rfl

/-! ### Claims about the feature-likelihood lookup -/

/-- C2 counterexample: with `p_global = 0`, `n = 1`, `s = 1` the binomial
tail probability is exactly 0, and in log-surprise mode the inner `ll`
re-raises the `math.log(0)` exception to the caller instead of clamping
the score to `+infinity`. -/
theorem C2_log_zero_raises : ll 1 1 0 true = Except.error () := by
  apply ll_log_err
  rw [pTail, Finset.Icc_self, Finset.sum_singleton]
  norm_num

/-- C2 (amended): for every `s`, `n` and `p_global ∈ [0,1]`, the surprise
computation returns an extended-real value except in exactly one case — in
log-surprise mode a binomial tail probability of 0 propagates an exception
to the caller (it is not clamped to `+infinity`).  A tail probability of 1
yields the `-infinity` clamp in log-surprise mode, and a tail probability
of 0 yields the `+infinity` clamp in reciprocal mode; reciprocal mode never
raises. -/
theorem C2_surprise_edge_cases (s n : ℕ) (p : ℚ) (h0 : 0 ≤ p) (h1 : p ≤ 1) :
    (pTail s n p = 0 → ll s n p true = Except.error ()) ∧
    (pTail s n p = 0 → ll s n p false = Except.ok ⊤) ∧
    (pTail s n p = 1 → ll s n p true = Except.ok ⊥) ∧
    (0 < pTail s n p → ∃ v : EReal, ll s n p true = Except.ok v) ∧
    (∃ w : EReal, ll s n p false = Except.ok w) := by
  refine ⟨fun hz => ll_log_err (le_of_eq hz), fun hz => by simp [ll, hz],
    ll_log_bot, ?_, ?_⟩
  · intro hpos
    by_cases hone : pTail s n p = 1
    · exact ⟨⊥, ll_log_bot hone⟩
    · exact ⟨_, ll_log_coe hpos (lt_of_le_of_ne (pTail_le_one h0 h1) hone)⟩
  · by_cases hz : pTail s n p = 0
    · exact ⟨⊤, by simp [ll, hz]⟩
    · have hpos : 0 < pTail s n p := lt_of_le_of_ne (pTail_nonneg h0 h1) (Ne.symm hz)
      have hc : (0:ℝ) < ((pTail s n p : ℚ) : ℝ) := by exact_mod_cast hpos
      have hinv : (0:ℝ) < 1 / ((pTail s n p : ℚ) : ℝ) := by positivity
      refine ⟨((Real.log (1 / ((pTail s n p : ℚ) : ℝ)) : ℝ) : EReal), ?_⟩
      rw [ll]
      rw [if_neg hz, if_neg (not_le.mpr hinv)]

theorem C2_surprise_edge_cases_witness :
    (0 ≤ (1/2 : ℚ)) ∧ ((1/2 : ℚ) ≤ 1) ∧
    ((pTail 1 2 (1/2) = 0 → ll 1 2 (1/2) true = Except.error ()) ∧
     (pTail 1 2 (1/2) = 0 → ll 1 2 (1/2) false = Except.ok ⊤) ∧
     (pTail 1 2 (1/2) = 1 → ll 1 2 (1/2) true = Except.ok ⊥) ∧
     (0 < pTail 1 2 (1/2) → ∃ v : EReal, ll 1 2 (1/2) true = Except.ok v) ∧
     (∃ w : EReal, ll 1 2 (1/2) false = Except.ok w)) :=
  ⟨by norm_num, by norm_num,
    C2_surprise_edge_cases 1 2 (1/2) (by norm_num) (by norm_num)⟩

/-- C4: on the input `feat_prob = {0: {0: 0.5, 1: 0.5}}` with
`min_size = max_size = 2` in log-surprise mode, `precompute_feature_likelihood`
succeeds and the table entry for category 0, `n_zone = 2, s_zone = 2` is a
finite real strictly greater than the entry for `s_zone = 1`. -/
theorem C4_scenario2 :
    ∃ (tbl : Table) (a b : ℝ),
      precompute_feature_likelihood 2 2 fpC4 true = Except.ok tbl ∧
      getScore tbl 0 0 2 2 = some ((a : ℝ) : EReal) ∧
      getScore tbl 0 0 2 1 = some ((b : ℝ) : EReal) ∧ b < a := by
  refine ⟨tblC4, Real.log (-Real.log ((1:ℝ)/4)), Real.log (-Real.log ((3:ℝ)/4)),
    precompute_val, ?_, ?_, ?_⟩
  · simp [getScore, tblC4, srowC4, List.lookup, entry22]
  · simp [getScore, tblC4, srowC4, List.lookup, entry21]
  · have h1 : Real.log ((3:ℝ)/4) < 0 := Real.log_neg (by norm_num) (by norm_num)
    have h2 : Real.log ((1:ℝ)/4) < Real.log ((3:ℝ)/4) :=
      Real.log_lt_log (by norm_num) (by norm_num)
    exact Real.log_lt_log (by linarith) (by linarith)

/-- C5: when `precompute_feature_likelihood` returns a table, the table has
an entry at `(f, c, n, s)` exactly when the input dictionary has a
probability for `(f, c)`, the category `c` is not the missing-value marker
`-1`, `n` lies in `[min_size, max_size]` and `s` lies in `[0, n]`. -/
theorem C5_key_structure (minS maxS : ℕ) (fp : FeatProb) (ls : Bool) (tbl : Table)
    (hms : minS ≤ maxS)
    (h : precompute_feature_likelihood minS maxS fp ls = Except.ok tbl)
    (f : ℕ) (c : ℤ) (n s : ℕ) :
    (∃ v, getScore tbl f c n s = some v) ↔
      ((∃ p, fpLookup fp f c = some p) ∧ c ≠ -1 ∧ minS ≤ n ∧ n ≤ maxS ∧ s ≤ n) := by
  constructor
  · rintro ⟨v, hv⟩
    obtain ⟨p, hp, hc, hn, hs, _⟩ := getScore_ok h hv
    obtain ⟨hn1, hn2⟩ := range'_mem_iff.mp hn
    refine ⟨⟨p, hp⟩, hc, hn1, hn2, ?_⟩
    omega
  · rintro ⟨⟨p, hp⟩, hc, hn1, hn2, hsn⟩
    simp only [fpLookup, Option.bind_eq_some] at hp
    obtain ⟨cats, hcats, hpc⟩ := hp
    simp only [precompute_feature_likelihood] at h
    obtain ⟨ct, hinner, hct⟩ := exceptMapVals_ok_mem h hcats
    have hpf : List.lookup c (cats.filter fun cp => cp.1 != -1) = some p := by
      rw [lookup_filter_ne, if_neg hc]; exact hpc
    obtain ⟨st, hsize, hst⟩ := exceptMapVals_ok_mem hinner hpf
    simp only [sizeTab] at hsize
    obtain ⟨row, hrow_ok, hrow⟩ := exceptTab_ok_mem hsize (range'_mem_iff.mpr ⟨hn1, hn2⟩)
    simp only [sRow] at hrow_ok
    obtain ⟨v, hll, hsv⟩ := exceptTab_ok_mem hrow_ok
      (show s ∈ List.range (n + 1) from List.mem_range.mpr (by omega))
    exact ⟨v, by simp [getScore, hct, hst, hrow, hsv]⟩

theorem C5_key_structure_witness :
    (2 ≤ 2) ∧ precompute_feature_likelihood 2 2 fpC4 true = Except.ok tblC4 ∧
    ((∃ v, getScore tblC4 0 0 2 1 = some v) ↔
      ((∃ p, fpLookup fpC4 0 0 = some p) ∧ (0:ℤ) ≠ -1 ∧ 2 ≤ 2 ∧ 2 ≤ 2 ∧ 1 ≤ 2)) :=
  ⟨le_refl 2, precompute_val, C5_key_structure 2 2 fpC4 true tblC4 (le_refl 2) precompute_val 0 0 2 1⟩

/-- C3: scores stored in the lookup table are non-decreasing in the
observed count `s` for a fixed zone size `n` (for any category whose
global probability is a genuine probability in `[0,1]`). -/
theorem C3_score_monotone (minS maxS : ℕ) (fp : FeatProb) (ls : Bool) (tbl : Table)
    (h : precompute_feature_likelihood minS maxS fp ls = Except.ok tbl)
    (f : ℕ) (c : ℤ) (n s s' : ℕ) (p : ℚ) (v v' : EReal)
    (hp : fpLookup fp f c = some p) (h0 : 0 ≤ p) (h1 : p ≤ 1) (hss : s ≤ s')
    (hv : getScore tbl f c n s = some v) (hv' : getScore tbl f c n s' = some v') :
    v ≤ v' := by
  obtain ⟨p1, hp1, _, _, _, hll1⟩ := getScore_ok h hv
  obtain ⟨p2, hp2, _, _, _, hll2⟩ := getScore_ok h hv'
  rw [hp] at hp1 hp2
  injection hp1 with hq1
  injection hp2 with hq2
  subst hq1; subst hq2
  exact ll_mono h0 h1 hss hll1 hll2

theorem C3_score_monotone_witness :
    precompute_feature_likelihood 2 2 fpC4 true = Except.ok tblC4 ∧
    fpLookup fpC4 0 0 = some (1/2) ∧ (0 ≤ (1/2 : ℚ)) ∧ ((1/2 : ℚ) ≤ 1) ∧ (1 ≤ 2) ∧
    getScore tblC4 0 0 2 1 = some entry21 ∧
    getScore tblC4 0 0 2 2 = some entry22 ∧
    entry21 ≤ entry22 :=
  ⟨precompute_val, rfl, by norm_num, by norm_num, by norm_num, rfl, rfl,
    C3_score_monotone 2 2 fpC4 true tblC4 precompute_val 0 0 2 1 2 (1/2)
      entry21 entry22 rfl (by norm_num) (by norm_num) (by norm_num) rfl rfl⟩

/-! ### Network invariants (C6) and geo-prior evaluation (C1) -/

/-- C6: for any site locations and any symmetric triangulation adjacency
(the spec-guaranteed shape of `compute_delaunay`'s output), the network
returned by `compute_network` has a symmetric distance matrix with zero
diagonal, and its edge list is symmetric. -/
theorem C6_network_invariants (locations : List (ℝ × ℝ)) (delaunay : ℕ → ℕ → Bool)
    (hsym : ∀ i j, delaunay i j = delaunay j i) :
    (∀ i j, (compute_network locations delaunay).distMat i j
        = (compute_network locations delaunay).distMat j i) ∧
    (∀ i, (compute_network locations delaunay).distMat i i = 0) ∧
    (∀ i j, (i, j) ∈ (compute_network locations delaunay).edges
        → (j, i) ∈ (compute_network locations delaunay).edges) := by
  refine ⟨?_, ?_, ?_⟩
  · intro i j
    show euclid _ _ = euclid _ _
    rw [euclid, euclid]
    congr 1
    ring
  · intro i
    show euclid _ _ = 0
    rw [euclid]
    simp
  · intro i j hij
    simp only [compute_network, List.mem_flatMap, List.mem_map, List.mem_filter,
      List.mem_range] at hij ⊢
    obtain ⟨a, ha, b, ⟨hb, hd⟩, heq⟩ := hij
    injection heq with h1 h2
    subst h1
    subst h2
    exact ⟨b, hb, a, ⟨ha, (hsym a b ▸ hd : delaunay b a = true)⟩, rfl⟩

theorem dC1_symm (i j : ℕ) : dC1 i j = dC1 j i := by
  simp only [dC1]
  by_cases h1 : i = j
  · subst h1; rfl
  · have h1' : j ≠ i := Ne.symm h1
    by_cases h2 : i < 3 <;> by_cases h3 : j < 3 <;> simp [h1, h1', h2, h3]

theorem C6_network_invariants_witness :
    (∀ i j, dC1 i j = dC1 j i) ∧
    ((∀ i j, (compute_network locsC1 dC1).distMat i j
        = (compute_network locsC1 dC1).distMat j i) ∧
     (∀ i, (compute_network locsC1 dC1).distMat i i = 0) ∧
     (∀ i j, (i, j) ∈ (compute_network locsC1 dC1).edges
        → (j, i) ∈ (compute_network locsC1 dC1).edges)) :=
  ⟨dC1_symm, C6_network_invariants locsC1 dC1 dC1_symm⟩

theorem euclid_eval (x1 y1 x2 y2 : ℝ) :
    euclid (x1, y1) (x2, y2) = Real.sqrt ((x1 - x2) ^ 2 + (y1 - y2) ^ 2) := rfl

theorem sqrt_four : Real.sqrt 4 = 2 := by
  rw [show (4:ℝ) = 2 ^ 2 by norm_num, Real.sqrt_sq (by norm_num : (0:ℝ) ≤ 2)]

theorem entriesC1_val :
    delaunayDistEntries locsC1 dC1 = [1, 2, 1, Real.sqrt 5, 2, Real.sqrt 5] := by
  have hlist : delaunayDistEntries locsC1 dC1
      = List.filter (fun x => decide (x ≠ 0))
          [0, euclid ((0:ℝ), (0:ℝ)) ((1:ℝ), (0:ℝ)), euclid ((0:ℝ), (0:ℝ)) ((0:ℝ), (2:ℝ)),
           euclid ((1:ℝ), (0:ℝ)) ((0:ℝ), (0:ℝ)), 0, euclid ((1:ℝ), (0:ℝ)) ((0:ℝ), (2:ℝ)),
           euclid ((0:ℝ), (2:ℝ)) ((0:ℝ), (0:ℝ)), euclid ((0:ℝ), (2:ℝ)) ((1:ℝ), (0:ℝ)), 0] := rfl
  have e1 : euclid ((0:ℝ), (0:ℝ)) ((1:ℝ), (0:ℝ)) = 1 := by
    rw [euclid_eval, show ((0:ℝ) - 1) ^ 2 + ((0:ℝ) - 0) ^ 2 = 1 by norm_num, Real.sqrt_one]
  have e2 : euclid ((0:ℝ), (0:ℝ)) ((0:ℝ), (2:ℝ)) = 2 := by
    rw [euclid_eval, show ((0:ℝ) - 0) ^ 2 + ((0:ℝ) - 2) ^ 2 = 4 by norm_num, sqrt_four]
  have e3 : euclid ((1:ℝ), (0:ℝ)) ((0:ℝ), (0:ℝ)) = 1 := by
    rw [euclid_eval, show ((1:ℝ) - 0) ^ 2 + ((0:ℝ) - 0) ^ 2 = 1 by norm_num, Real.sqrt_one]
  have e4 : euclid ((1:ℝ), (0:ℝ)) ((0:ℝ), (2:ℝ)) = Real.sqrt 5 := by
    rw [euclid_eval, show ((1:ℝ) - 0) ^ 2 + ((0:ℝ) - 2) ^ 2 = 5 by norm_num]
  have e5 : euclid ((0:ℝ), (2:ℝ)) ((0:ℝ), (0:ℝ)) = 2 := by
    rw [euclid_eval, show ((0:ℝ) - 0) ^ 2 + ((2:ℝ) - 0) ^ 2 = 4 by norm_num, sqrt_four]
  have e6 : euclid ((0:ℝ), (2:ℝ)) ((1:ℝ), (0:ℝ)) = Real.sqrt 5 := by
    rw [euclid_eval, show ((0:ℝ) - 1) ^ 2 + ((2:ℝ) - 0) ^ 2 = 5 by norm_num]
  rw [hlist, e1, e2, e3, e4, e5, e6]
  have h5 : Real.sqrt 5 ≠ 0 := by positivity
  simp [List.filter, h5]

/-- C1: on three non-collinear sites the "distance" geo-prior parameter
computed by the source is the mean over all Delaunay (triangle) edges,
`(3 + √5)/3`, whereas the mean edge length along the minimum spanning tree
of the Delaunay-weighted graph is `3/2`; the two disagree, so the fitted
parameter is not the MST mean edge length. -/
theorem C1_distance_not_mst_mean :
    estimate_geo_prior_distance locsC1 dC1 = (3 + Real.sqrt 5) / 3 ∧
    mstMeanTriangle 1 2 (Real.sqrt 5) = 3 / 2 ∧
    estimate_geo_prior_distance locsC1 dC1 ≠ mstMeanTriangle 1 2 (Real.sqrt 5) := by
  have h2lt : (2:ℝ) < Real.sqrt 5 := by
    rw [← sqrt_four]
    exact Real.sqrt_lt_sqrt (by norm_num) (by norm_num)
  have hmean : estimate_geo_prior_distance locsC1 dC1 = (3 + Real.sqrt 5) / 3 := by
    rw [estimate_geo_prior_distance, entriesC1_val]
    simp only [List.sum_cons, List.sum_nil, List.length_cons, List.length_nil]
    push_cast
    ring
  have hmst : mstMeanTriangle 1 2 (Real.sqrt 5) = 3 / 2 := by
    rw [mstMeanTriangle, max_eq_right (le_of_lt h2lt),
      max_eq_right (by linarith : (1:ℝ) ≤ Real.sqrt 5)]
    ring
  refine ⟨hmean, hmst, ?_⟩
  rw [hmean, hmst]
  intro hcontra
  have h5 : Real.sqrt 5 = 3 / 2 := by linarith
  have hsq := Real.sq_sqrt (by norm_num : (0:ℝ) ≤ 5)
  rw [h5] at hsq
  norm_num at hsq

/-! ### Simulation-harness claims -/

theorem range_map_sum (k : ℕ) (f : ℕ → ℝ) :
    ((List.range k).map f).sum = ∑ i in Finset.range k, f i := by
  induction k with
  | zero => simp
  | succ m ih =>
    rw [List.range_succ, List.map_append, List.sum_append, Finset.sum_range_succ, ih]
    simp

/-- C7: every weight row drawn by `simulate_weights` has one entry per
active mixture component (3 with inheritance, 2 without) and sums to 1
(hence trivially within the 1e-9 tolerance). -/
theorem C7_weights_rows (f_global f_contact f_inheritance : ℝ) (inheritance : Bool)
    (n_features : ℕ) (g : ℕ → ℕ → ℝ) (hg : ∀ f i, 0 < g f i) :
    ∀ row ∈ simulate_weights f_global f_contact f_inheritance inheritance n_features g,
      row.length = (if inheritance then 3 else 2) ∧ |row.sum - 1| ≤ 1e-9 := by
  intro row hrow
  simp only [simulate_weights, List.mem_map, List.mem_range] at hrow
  obtain ⟨f, hf, rfl⟩ := hrow
  constructor
  · simp [dirichletSample]
  · have htot : 0 < ∑ j in Finset.range (if inheritance then 3 else 2), g f j :=
      Finset.sum_pos (fun i _ => hg f i)
        (Finset.nonempty_range_iff.mpr (by cases inheritance <;> norm_num))
    have hsum : (dirichletSample (if inheritance then 3 else 2) (g f)).sum = 1 := by
      rw [dirichletSample, range_map_sum, ← Finset.sum_div, div_self (ne_of_gt htot)]
    rw [hsum]
    norm_num

theorem C7_weights_rows_witness :
    (∀ (f i : ℕ), 0 < (fun _ _ => (1:ℝ)) f i) ∧
    ∀ row ∈ simulate_weights 1 1 1 true 2 (fun _ _ => (1:ℝ)),
      row.length = (if true then 3 else 2) ∧ |row.sum - 1| ≤ 1e-9 :=
  ⟨fun _ _ => one_pos, C7_weights_rows 1 1 1 true 2 (fun _ _ => 1) (fun _ _ => one_pos)⟩

theorem padded_dirichlet_row_sum {k : ℕ} (g : ℕ → ℝ) (hg : ∀ i, 0 < g i) (hk : 1 ≤ k) :
    ∑ c in Finset.range k, (if c < k then dirichletVal k g c else 0) = 1 := by
  have htot : 0 < ∑ j in Finset.range k, g j :=
    Finset.sum_pos (fun i _ => hg i) (Finset.nonempty_range_iff.mpr (by omega))
  have hcong : ∀ c ∈ Finset.range k,
      (if c < k then dirichletVal k g c else 0) = g c / ∑ j in Finset.range k, g j := by
    intro c hc
    rw [if_pos (Finset.mem_range.mp hc), dirichletVal]
  rw [Finset.sum_congr rfl hcong, ← Finset.sum_div, div_self (ne_of_gt htot)]

/-- C8: each probability row produced by `simulate_assignment_probabilities`
(global, per-zone, and per-family when inheritance is enabled) sums to 1
over the feature's `catCount f` valid categories and is exactly 0 on every
padding entry beyond them. -/
theorem C8_assignment_probability_rows (n_features : ℕ) (catCount : ℕ → ℕ)
    (inheritance : Bool) (n_zones n_families : ℕ)
    (gG : ℕ → ℕ → ℝ) (gZ gF : ℕ → ℕ → ℕ → ℝ)
    (hG : ∀ f i, 0 < gG f i) (hZ : ∀ z f i, 0 < gZ z f i) (hF : ∀ y f i, 0 < gF y f i)
    (hcat : ∀ f, 1 ≤ catCount f) :
    (∀ f, (∑ c in Finset.range (catCount f),
        (simulate_assignment_probabilities n_features catCount inheritance
          n_zones n_families gG gZ gF).1 f c) = 1 ∧
      ∀ c, catCount f ≤ c →
        (simulate_assignment_probabilities n_features catCount inheritance
          n_zones n_families gG gZ gF).1 f c = 0) ∧
    (∀ z f, (∑ c in Finset.range (catCount f),
        (simulate_assignment_probabilities n_features catCount inheritance
          n_zones n_families gG gZ gF).2.1 z f c) = 1 ∧
      ∀ c, catCount f ≤ c →
        (simulate_assignment_probabilities n_features catCount inheritance
          n_zones n_families gG gZ gF).2.1 z f c = 0) ∧
    (inheritance = true → ∃ pf,
        (simulate_assignment_probabilities n_features catCount inheritance
          n_zones n_families gG gZ gF).2.2 = some pf ∧
        ∀ y f, (∑ c in Finset.range (catCount f), pf y f c) = 1 ∧
          ∀ c, catCount f ≤ c → pf y f c = 0) := by
  refine ⟨?_, ?_, ?_⟩
  · intro f
    constructor
    · exact padded_dirichlet_row_sum (gG f) (hG f) (hcat f)
    · intro c hc
      simp only [simulate_assignment_probabilities]
      rw [if_neg (by omega)]
  · intro z f
    constructor
    · exact padded_dirichlet_row_sum (gZ z f) (hZ z f) (hcat f)
    · intro c hc
      simp only [simulate_assignment_probabilities]
      rw [if_neg (by omega)]
  · intro hinh
    refine ⟨fun fam f c => if c < catCount f then dirichletVal (catCount f) (gF fam f) c else 0,
      ?_, ?_⟩
    · simp only [simulate_assignment_probabilities, hinh, if_true]
    · intro y f
      constructor
      · exact padded_dirichlet_row_sum (gF y f) (hF y f) (hcat f)
      · intro c hc
        show (if c < catCount f then dirichletVal (catCount f) (gF y f) c else 0) = 0
        rw [if_neg (by omega)]

theorem C8_assignment_probability_rows_witness :
    (∀ (f i : ℕ), 0 < (fun _ _ => (1:ℝ)) f i) ∧
    (∀ (z f i : ℕ), 0 < (fun _ _ _ => (1:ℝ)) z f i) ∧
    (∀ (y f i : ℕ), 0 < (fun _ _ _ => (1:ℝ)) y f i) ∧
    (∀ f : ℕ, 1 ≤ (fun _ => 2) f) ∧
    ((∀ f, (∑ c in Finset.range ((fun _ => 2) f),
        (simulate_assignment_probabilities 1 (fun _ => 2) true 1 1
          (fun _ _ => (1:ℝ)) (fun _ _ _ => (1:ℝ)) (fun _ _ _ => (1:ℝ))).1 f c) = 1 ∧
      ∀ c, (fun _ => 2) f ≤ c →
        (simulate_assignment_probabilities 1 (fun _ => 2) true 1 1
          (fun _ _ => (1:ℝ)) (fun _ _ _ => (1:ℝ)) (fun _ _ _ => (1:ℝ))).1 f c = 0) ∧
    (∀ z f, (∑ c in Finset.range ((fun _ => 2) f),
        (simulate_assignment_probabilities 1 (fun _ => 2) true 1 1
          (fun _ _ => (1:ℝ)) (fun _ _ _ => (1:ℝ)) (fun _ _ _ => (1:ℝ))).2.1 z f c) = 1 ∧
      ∀ c, (fun _ => 2) f ≤ c →
        (simulate_assignment_probabilities 1 (fun _ => 2) true 1 1
          (fun _ _ => (1:ℝ)) (fun _ _ _ => (1:ℝ)) (fun _ _ _ => (1:ℝ))).2.1 z f c = 0) ∧
    (true = true → ∃ pf,
        (simulate_assignment_probabilities 1 (fun _ => 2) true 1 1
          (fun _ _ => (1:ℝ)) (fun _ _ _ => (1:ℝ)) (fun _ _ _ => (1:ℝ))).2.2 = some pf ∧
        ∀ y f, (∑ c in Finset.range ((fun _ => 2) f), pf y f c) = 1 ∧
          ∀ c, (fun _ => 2) f ≤ c → pf y f c = 0)) :=
  ⟨fun _ _ => one_pos, fun _ _ _ => one_pos, fun _ _ _ => one_pos, fun _ => by norm_num,
    C8_assignment_probability_rows 1 (fun _ => 2) true 1 1
      (fun _ _ => 1) (fun _ _ _ => 1) (fun _ _ _ => 1)
      (fun _ _ => one_pos) (fun _ _ _ => one_pos) (fun _ _ _ => one_pos)
      (fun _ => by norm_num)⟩

theorem famSetsAux_subset (choose : ℕ → List ℕ → List ℕ)
    (hsub : ∀ k rem, ∀ x ∈ choose k rem, x ∈ rem) :
    ∀ (m k : ℕ) (rem : List ℕ) (j : ℕ) (x : ℕ),
      x ∈ (famSetsAux choose k m rem).getD j [] → x ∈ rem := by
  intro m
  induction m with
  | zero =>
    intro k rem j x hx
    simp [famSetsAux] at hx
  | succ m ih =>
    intro k rem j x hx
    rw [famSetsAux] at hx
    cases j with
    | zero =>
      rw [List.getD_cons_zero] at hx
      exact hsub k rem x hx
    | succ j =>
      rw [List.getD_cons_succ] at hx
      exact List.mem_of_mem_filter (ih (k + 1) _ j x hx)

theorem famSetsAux_disjoint (choose : ℕ → List ℕ → List ℕ)
    (hsub : ∀ k rem, ∀ x ∈ choose k rem, x ∈ rem) :
    ∀ (m k : ℕ) (rem : List ℕ) (i j : ℕ), i < j → ∀ x,
      x ∈ (famSetsAux choose k m rem).getD i [] →
      x ∉ (famSetsAux choose k m rem).getD j [] := by
  intro m
  induction m with
  | zero =>
    intro k rem i j hij x hx
    simp [famSetsAux] at hx
  | succ m ih =>
    intro k rem i j hij x hx hx'
    rw [famSetsAux] at hx hx'
    cases i with
    | zero =>
      cases j with
      | zero => omega
      | succ j =>
        rw [List.getD_cons_zero] at hx
        rw [List.getD_cons_succ] at hx'
        have hmem := famSetsAux_subset choose hsub m (k + 1) _ j x hx'
        have hdec := List.of_mem_filter hmem
        simp only [decide_eq_true_eq] at hdec
        exact hdec hx
    | succ i =>
      cases j with
      | zero => omega
      | succ j =>
        rw [List.getD_cons_succ] at hx hx'
        exact ih (k + 1) _ i j (by omega) x hx hx'

/-- C9: the boolean family matrix built by `simulate_families` has
pairwise-disjoint rows — no site is assigned to more than one family —
because each family is chosen from the pool of still-unassigned sites. -/
theorem C9_families_disjoint (choose : ℕ → List ℕ → List ℕ) (n_families : ℕ)
    (siteIds : List ℕ) (hsub : ∀ k rem, ∀ x ∈ choose k rem, x ∈ rem)
    (s k k' : ℕ) (hkk : k ≠ k')
    (hk : simulate_families choose n_families siteIds k s = true) :
    simulate_families choose n_families siteIds k' s = false := by
  simp only [simulate_families, decide_eq_true_eq] at hk
  simp only [simulate_families, decide_eq_false_iff_not]
  rcases Nat.lt_or_ge k k' with h | h
  · exact famSetsAux_disjoint choose hsub n_families 0 siteIds k k' h s hk
  · have hlt : k' < k := by omega
    intro hmem
    exact famSetsAux_disjoint choose hsub n_families 0 siteIds k' k hlt s hmem hk

theorem C9_families_disjoint_witness :
    (∀ (k : ℕ) (rem : List ℕ), ∀ x ∈ (fun (_ : ℕ) (r : List ℕ) => r.take 1) k rem, x ∈ rem) ∧
    (0 ≠ 1) ∧
    simulate_families (fun _ r => r.take 1) 2 [0, 1, 2] 0 0 = true ∧
    simulate_families (fun _ r => r.take 1) 2 [0, 1, 2] 1 0 = false :=
  ⟨fun _ rem _ hx => List.take_subset 1 rem hx, by norm_num, by decide,
    C9_families_disjoint (fun _ r => r.take 1) 2 [0, 1, 2]
      (fun _ rem _ hx => List.take_subset 1 rem hx) 0 0 1 (by norm_num) (by decide)⟩

theorem cumsum_length (l : List ℚ) : (cumsum l).length = l.length := by
  induction l with
  | nil => rfl
  | cons x xs ih => simp [cumsum, ih]

theorem firstTrue_lt_length : ∀ {l : List Bool} {i : ℕ}, firstTrue l = some i → i < l.length := by
  intro l
  induction l with
  | nil => intro i h; simp [firstTrue] at h
  | cons b rest ih =>
    intro i h
    cases b with
    | true =>
      simp only [firstTrue, Option.some.injEq] at h
      subst h
      simp
    | false =>
      simp only [firstTrue, Option.map_eq_some'] at h
      obtain ⟨j, hj, rfl⟩ := h
      have := ih hj
      simp only [List.length_cons]
      omega

theorem sampleOne_lt {p : List ℚ} (hp : p ≠ []) (z : ℚ) : sampleOne p z < p.length := by
  have hlen : ((cumsum p).map fun c => decide (z < c)).length = p.length := by
    simp [cumsum_length]
  rw [sampleOne, argmaxBool]
  cases hft : firstTrue ((cumsum p).map fun c => decide (z < c)) with
  | none =>
    simp only [Option.getD_none]
    cases p with
    | nil => exact absurd rfl hp
    | cons a l => simp
  | some i =>
    simp only [Option.getD_some]
    have hbound := firstTrue_lt_length hft
    rw [hlen] at hbound
    exact hbound

theorem mem_zipWith {α β γ : Type} {f : α → β → γ} :
    ∀ {l1 : List α} {l2 : List β} {c : γ}, c ∈ List.zipWith f l1 l2 →
      ∃ a, a ∈ l1 ∧ ∃ b, b ∈ l2 ∧ c = f a b := by
  intro l1
  induction l1 with
  | nil => intro l2 c h; simp at h
  | cons a l ih =>
    intro l2 c h
    cases l2 with
    | nil => simp at h
    | cons b m =>
      simp only [List.zipWith_cons_cons, List.mem_cons] at h
      rcases h with h | h
      · exact ⟨a, List.mem_cons_self a l, b, List.mem_cons_self b m, h⟩
      · obtain ⟨a', ha, b', hb, rfl⟩ := ih h
        exact ⟨a', List.mem_cons_of_mem _ ha, b', List.mem_cons_of_mem _ hb, rfl⟩

/-- C10: on a probability array whose rows have `ncat` entries summing
to 1, `sample_categorical` returns one value per outer cell (the last axis
is removed) and every returned value is an integer below `ncat`. -/
theorem C10_sample_categorical_shape_range (p : List (List ℚ)) (z : List ℚ) (ncat : ℕ)
    (hlen : z.length = p.length)
    (hrow : ∀ row ∈ p, row.length = ncat ∧ row.sum = 1) :
    (sample_categorical p z).length = p.length ∧
    ∀ v ∈ sample_categorical p z, v < ncat := by
  constructor
  · rw [sample_categorical, List.length_zipWith, hlen, Nat.min_self]
  · intro v hv
    obtain ⟨row, hrowmem, zi, _, rfl⟩ := mem_zipWith hv
    obtain ⟨hl, hs⟩ := hrow row hrowmem
    have hne : row ≠ [] := by
      intro hnil
      rw [hnil] at hs
      simp at hs
    have := sampleOne_lt hne zi
    omega

theorem C10_sample_categorical_shape_range_witness :
    (([(1:ℚ)/4] : List ℚ).length = ([[(1:ℚ)/2, (1:ℚ)/2]] : List (List ℚ)).length) ∧
    (∀ row ∈ ([[(1:ℚ)/2, (1:ℚ)/2]] : List (List ℚ)), row.length = 2 ∧ row.sum = 1) ∧
    ((sample_categorical [[(1:ℚ)/2, (1:ℚ)/2]] [(1:ℚ)/4]).length
        = ([[(1:ℚ)/2, (1:ℚ)/2]] : List (List ℚ)).length ∧
     ∀ v ∈ sample_categorical [[(1:ℚ)/2, (1:ℚ)/2]] [(1:ℚ)/4], v < 2) :=
  ⟨rfl,
   by
     intro row hrow
     rw [List.mem_singleton] at hrow
     subst hrow
     refine ⟨rfl, by norm_num⟩,
   C10_sample_categorical_shape_range [[(1:ℚ)/2, (1:ℚ)/2]] [(1:ℚ)/4] 2 rfl
     (by
       intro row hrow
       rw [List.mem_singleton] at hrow
       subst hrow
       refine ⟨rfl, by norm_num⟩)⟩
